import Mathlib

/-!
# CapyChop — verification of the reward-computation and claim-authorization pipeline

Shallow embedding of the CapyChop repository's core:

* `server/signer.js` — voucher signer (`generateStarClaimSignature`);
* the epoch reward script (`generate-rewards` CLI, `src/unnamed/part_003`) —
  `calculateRewards`, `generateMerkleTree`, `verifyProof`;
* the automated cron coordinator (`api/cron/generate-rewards.js`, included in
  the repository's README bundle) — `checkAndResetEpoch` and the cycle handler;
* `api/get-chops-reward.js` — reward lookup by case-insensitive address match.

Modelling conventions:

* Byte strings are `List ℕ` (each entry one byte).  keccak256 and the ECDSA
  signing primitive are abstract function parameters: the claims under
  verification are about how the code assembles their inputs, not about the
  hash itself.  A 32-byte hash output is represented as a `ℕ` (its big-endian
  value), turned back into bytes with `beBytes 32`.
* JavaScript numeric computation in `calculateRewards` is IEEE-754 double
  arithmetic; it is embedded over exact rationals `ℚ`, with the curve exponent
  restricted to naturals (where `Math.pow` is exact on the small integer bases
  involved).  Every concrete input used to settle a claim was chosen so that
  the double computation and the exact computation agree (the values are far
  from `toFixed` rounding boundaries).
* `x.toFixed(d)` (ECMA-262: the nearest `d`-decimal value, ties toward +∞)
  followed by `ethers.parseEther` is `⌊x·10^d + 1/2⌋` scaled to wei.
-/

namespace CapyChop

/-! ## Solidity packed encoding and the voucher signer (`server/signer.js`) -/

/-- Big-endian fixed-width byte encoding: `beBytes w n` is the `w`-byte
big-endian encoding of `n mod 256^w`. -/
def beBytes : ℕ → ℕ → List ℕ
  | 0, _ => []
  | w + 1, n => beBytes w (n / 256) ++ [n % 256]

/-- The two Solidity types appearing in the repository's packed hashes. -/
inductive SolType where
  | addressTy : SolType
  | uint256Ty : SolType

/-- `ethers.solidityPacked` encoding of one value: an `address` packs to its
20 bytes, a `uint256` to 32 big-endian bytes (no padding between items). -/
def packValue : SolType → ℕ → List ℕ
  | .addressTy, v => beBytes 20 v
  | .uint256Ty, v => beBytes 32 v

/-- `ethers.solidityPacked(types, values)`: the tight concatenation of each
value's packed encoding, in order.  (ethers requires the two arrays to have
equal length; `zip` keeps the aligned pairs.) -/
def solidityPackedBytes (types : List SolType) (values : List ℕ) : List ℕ :=
  ((types.zip values).map (fun tv => packValue tv.1 tv.2)).flatten

/-- `ethers.solidityPackedKeccak256(types, values)` with an abstract keccak. -/
def solidityPackedKeccak256 (keccak : List ℕ → ℕ)
    (types : List SolType) (values : List ℕ) : ℕ :=
  keccak (solidityPackedBytes types values)

/-- UTF-8 bytes of an ASCII string literal. -/
def strBytes (s : String) : List ℕ :=
  s.data.map Char.toNat

/-- `ethers.hashMessage` (EIP-191 "personal sign"): keccak256 of
`"\x19Ethereum Signed Message:\n" ++ String(message.length) ++ message`. -/
def hashMessageBytes (keccak : List ℕ → ℕ) (message : List ℕ) : ℕ :=
  keccak (strBytes "\x19Ethereum Signed Message:\n"
    ++ strBytes (toString message.length) ++ message)

/-- The payload returned by `generateStarClaimSignature`. -/
structure StarClaimVoucher where
  signature : ℕ
  nonce : ℕ
  deadline : ℕ
  amount : ℕ

/-- `server/signer.js` `generateStarClaimSignature(userAddress, amount, nonce)`.
`keccak` and `sign` (the wallet's raw digest signer) are abstract; `chainId`
and `starsAddr` are the environment configuration, `nowSec` is
`Math.floor(Date.now() / 1000)`.  The deadline is one hour from now; the
message hash packs `[address, uint256, uint256, uint256, uint256, address]`
over `[user, amount, nonce, deadline, chainId, contract]`, and
`wallet.signMessage(getBytes(messageHash))` signs the EIP-191 wrap of the
32 raw hash bytes. -/
def generateStarClaimSignature (keccak : List ℕ → ℕ) (sign : ℕ → ℕ)
    (chainId starsAddr nowSec userAddress amount nonce : ℕ) : StarClaimVoucher :=
  let deadline := nowSec + 3600
  let messageHash := solidityPackedKeccak256 keccak
    [.addressTy, .uint256Ty, .uint256Ty, .uint256Ty, .uint256Ty, .addressTy]
    [userAddress, amount, nonce, deadline, chainId, starsAddr]
  let signature := sign (hashMessageBytes keccak (beBytes 32 messageHash))
  ⟨signature, nonce, deadline, amount⟩

/-! ## The reward curve calculator (`calculateRewards`, part_003) -/

/-- A leaderboard entry as fetched from chain: address and final star count. -/
structure Player where
  address : ℕ
  stars : ℤ
  deriving DecidableEq

/-- One step of stable descending insertion: `x` goes after every element with
at least as many stars (preserving the original relative order of ties). -/
def insertStarsDesc (x : Player) : List Player → List Player
  | [] => [x]
  | y :: ys => if x.stars < y.stars then y :: insertStarsDesc x ys else x :: y :: ys

/-- `[...players].sort((a, b) => b.stars - a.stars)`: a stable descending sort
by star count (ECMA-262 requires `Array.prototype.sort` to be stable), rendered
as stable insertion sort. -/
def sortStarsDesc : List Player → List Player
  | [] => []
  | x :: xs => insertStarsDesc x (sortStarsDesc xs)

/-- Numeric value of `x.toFixed(2)` (ECMA-262 `toFixed`: the 2-decimal value
nearest to `x`, ties resolved to the larger candidate, i.e. toward +∞). -/
def toFixed2 (x : ℚ) : ℚ :=
  (⌊x * 100 + 1 / 2⌋ : ℚ) / 100

/-- `ethers.parseEther(x.toFixed(4))` as an integer amount of wei: round `x`
to the nearest 4-decimal token amount (ties toward +∞), then scale by 10^18.
A 4-decimal token amount scaled by 10^18 is an integer multiple of 10^14. -/
def parseEtherFixed4 (x : ℚ) : ℤ :=
  ⌊x * 10 ^ 4 + 1 / 2⌋ * 10 ^ 14

/-- One output row of `calculateRewards` (the JS object; string-formatted
fields `percentile`, `weight`, `shareOfTotal` carry their numeric values). -/
structure RewardEntry where
  address : ℕ
  stars : ℤ
  rank : ℕ
  percentile : ℚ
  weight : ℚ
  shareOfTotal : ℚ
  rewardAmount : ℤ
  deriving DecidableEq

/-- Fallback entry for out-of-range list access (never hit under the length
hypotheses of the theorems below). -/
def emptyPlayer : Player := ⟨0, 0⟩

/-- The per-rank weights of `calculateRewards`:
`weights = sorted.map((player, index) => Math.pow(totalPlayers - rank + 1, curveExponent))`
with `rank = index + 1`.  The body reads only the index and the length, so the
map is rendered over `List.range totalPlayers`; with `rank = idx + 1 ≤ N` the
natural subtraction `N - rank + 1` equals `N - idx`. -/
def curveWeights (totalPlayers : ℕ) (curveExponent : ℕ) : List ℚ :=
  (List.range totalPlayers).map
    (fun idx => ((totalPlayers - idx : ℕ) : ℚ) ^ curveExponent)

/-- The body of `calculateRewards` after the sort (part_003, lines 40-72):
weights by inverse rank, `totalWeight` their sum, and per player (in sorted
order) the rank, `percentile = ((rank / totalPlayers) * 100).toFixed(2)`,
`shareOfTotal = weight / totalWeight`, and
`rewardAmount = ethers.parseEther((totalEmission * shareOfTotal).toFixed(4))`. -/
def calcFromSorted (sorted : List Player) (totalEmission : ℚ) (curveExponent : ℕ) :
    List RewardEntry :=
  let totalPlayers := sorted.length
  let weights := curveWeights totalPlayers curveExponent
  let totalWeight := weights.sum
  (List.range totalPlayers).map (fun idx =>
    let p := sorted.getD idx emptyPlayer
    let rank := idx + 1
    let percentile := toFixed2 ((rank : ℚ) / (totalPlayers : ℚ) * 100)
    let weight := weights.getD idx 0
    let shareOfTotal := weight / totalWeight
    let rewardAmount := parseEtherFixed4 (totalEmission * shareOfTotal)
    ⟨p.address, p.stars, rank, percentile, weight, shareOfTotal, rewardAmount⟩)

/-- `calculateRewards(players, totalEmission, curveExponent)` (part_003):
sort a spread copy of the input descending by stars, then distribute. -/
def calculateRewards (players : List Player) (totalEmission : ℚ)
    (curveExponent : ℕ) : List RewardEntry :=
  calcFromSorted (sortStarsDesc players) totalEmission curveExponent

/-- The claim's reading of step 3 of the spec ("Modelled from the spec" for the
comparison in C4 only): `rewardAmount(r) = floor(weight(r) / Σweight ×
totalEmission × tokenScalingFactor)` in exact arithmetic. -/
def specFloorReward (weight totalWeight totalEmission : ℚ) : ℤ :=
  ⌊weight / totalWeight * totalEmission * 10 ^ 18⌋

/-! ## The Merkle distribution builder (`generateMerkleTree` / `verifyProof`,
part_003, via `merkletreejs` with `sortPairs: true`)

32-byte hash values are represented by their big-endian numeric value `ℕ`.
`Buffer.compare` on equal-length big-endian buffers is the numeric order, so
`sortPairs` sorting a two-element level pair is `min`/`max`.  The two keccak
call shapes of the source are abstract functions:

* `leafHash a v` — `ethers.solidityPackedKeccak256(['address','uint256'],
  [address, amount])`, the leaf for an (address, amount) pair;
* `nodeHash x y` — `ethers.keccak256` of the 64-byte concatenation of two
  32-byte nodes, applied by `merkletreejs` to each sorted sibling pair.

Injectivity of these as pair functions (which for the real keccak256 is
collision resistance, plus injectivity of the fixed-width packings) is taken
as a hypothesis only where a claim needs it. -/

/-- Sorted-pair combination of two sibling nodes (`sortPairs: true`):
hash the concatenation of the pair in `Buffer.compare` order. -/
def combinePair (nodeHash : ℕ → ℕ → ℕ) (x y : ℕ) : ℕ :=
  nodeHash (min x y) (max x y)

/-- One level of `merkletreejs` tree construction: combine adjacent pairs
left to right; a lone trailing node is carried up unchanged (the library's
default, with `duplicateOdd` unset). -/
def nextLevel (nodeHash : ℕ → ℕ → ℕ) : List ℕ → List ℕ
  | [] => []
  | [x] => [x]
  | x :: y :: rest => combinePair nodeHash x y :: nextLevel nodeHash rest

/-- The level fold of `tree.getRoot()`, with an explicit bound on the number
of levels still to fold (each level at least halves a two-or-more list, so any
`fuel ≥ L.length` is enough; `merkleRoot` passes `L.length`). -/
def merkleRootFuel (nodeHash : ℕ → ℕ → ℕ) : ℕ → List ℕ → ℕ
  | _, [] => 0
  | _, [x] => x
  | 0, x :: _ :: _ => x
  | fuel + 1, x :: y :: rest =>
    merkleRootFuel nodeHash fuel (nextLevel nodeHash (x :: y :: rest))

/-- `tree.getRoot()`: fold levels upward until a single node remains.
(`merkletreejs` on an empty leaf list yields an empty root; `0` stands in —
the claims only concern nonempty allocation lists.) -/
def merkleRoot (nodeHash : ℕ → ℕ → ℕ) (L : List ℕ) : ℕ :=
  merkleRootFuel nodeHash L.length L

/-- The layer walk of `tree.getProof`, with the same fuel convention as
`merkleRootFuel`: at each level take the sibling (`idx ^ 1`) of the current
index when it exists, and move one level up at `idx / 2`. -/
def merkleProofFuel (nodeHash : ℕ → ℕ → ℕ) : ℕ → List ℕ → ℕ → List ℕ
  | _, [], _ => []
  | _, [_], _ => []
  | 0, _ :: _ :: _, _ => []
  | fuel + 1, x :: y :: rest, idx =>
    let L := x :: y :: rest
    let pairIndex := if idx % 2 = 1 then idx - 1 else idx + 1
    let sib := if pairIndex < L.length then [L.getD pairIndex 0] else []
    sib ++ merkleProofFuel nodeHash fuel (nextLevel nodeHash L) (idx / 2)

/-- `tree.getProof` for the leaf at index `idx` of the leaf level. -/
def merkleProofAt (nodeHash : ℕ → ℕ → ℕ) (L : List ℕ) (idx : ℕ) : List ℕ :=
  merkleProofFuel nodeHash L.length L idx

/-- `tree.getHexProof(leaf)`: locate the leaf value in the leaf level, then
produce the proof for that index.  (`List.indexOf` returns the length when
absent; the builder only calls this on present leaves.  The library scans all
leaves keeping the last equal one, this model the first: the two can differ
only when the same leaf value occurs twice — impossible for distinct
(address, amount) pairs under an injective leaf hash — and either index's
proof verifies the same leaf value.) -/
def merkleProofOf (nodeHash : ℕ → ℕ → ℕ) (leaves : List ℕ) (leaf : ℕ) : List ℕ :=
  merkleProofAt nodeHash leaves (leaves.indexOf leaf)

/-- `tree.verify(proof, leaf, root)` with `sortPairs: true`: fold the proof
from the leaf, sorting each (running hash, sibling) pair, and compare with the
root. -/
def merkleVerify (nodeHash : ℕ → ℕ → ℕ) (proof : List ℕ) (leaf root : ℕ) : Bool :=
  proof.foldl (fun h e => combinePair nodeHash h e) leaf == root

/-- An allocation as fed to the builder: address and rewardAmount (wei). -/
structure Allocation where
  address : ℕ
  amount : ℤ
  deriving DecidableEq

/-- The leaf level of `generateMerkleTree`:
`leaves = rewards.map(r => solidityPackedKeccak256(['address','uint256'], [r.address, r.rewardAmount]))`. -/
def merkleLeaves (leafHash : ℕ → ℤ → ℕ) (allocations : List Allocation) : List ℕ :=
  allocations.map (fun a => leafHash a.address a.amount)

/-- `generateMerkleTree(rewards)` output: the root and, per allocation, its
proof (`tree.getHexProof(leaves[index])`). -/
def generateMerkleTree (nodeHash : ℕ → ℕ → ℕ) (leafHash : ℕ → ℤ → ℕ)
    (allocations : List Allocation) : ℕ × List (Allocation × List ℕ) :=
  let leaves := merkleLeaves leafHash allocations
  (merkleRoot nodeHash leaves,
    allocations.map (fun a => (a, merkleProofOf nodeHash leaves (leafHash a.address a.amount))))

/-- `verifyProof(tree, address, amount, proof)` (part_003): recompute the leaf
from the queried address and amount and check it against the tree's root. -/
def verifyProof (nodeHash : ℕ → ℕ → ℕ) (leafHash : ℕ → ℤ → ℕ)
    (leaves : List ℕ) (address : ℕ) (amount : ℤ) (proof : List ℕ) : Bool :=
  merkleVerify nodeHash proof (leafHash address amount) (merkleRoot nodeHash leaves)

/-! ## The epoch rollover coordinator (`api/cron/generate-rewards.js`,
bundled in the repository's README document)

The handler is modelled as a pure state transition.  External collaborators
become function parameters: `blobHas e` — whether the blob store already holds
`epoch-e-rewards.json`; `playersOf e` — the (deduplicated) player records the
`StarsClaimed` event scan yields for epoch `e`; `genRoot` — the
rewards-and-merkle generation applied to the fetched players (its output is
opaque to the control-flow claims settled here).  Timestamps are compared in
`ℤ`, matching JS number subtraction `currentTime - lastResetTimestamp`. -/

/-- The ledger fields `checkAndResetEpoch` reads. -/
structure CronChain where
  currentEpoch : ℕ
  lastResetTimestamp : ℕ
  epochDuration : ℕ
  deriving DecidableEq

/-- `checkAndResetEpoch(starsContract, wallet)`: if the epoch window has
elapsed, call the ledger's `resetEpoch()` (incrementing the epoch) and return
the new epoch; otherwise return the current one.  Second component: whether
the reset transaction was sent. -/
def checkAndResetEpoch (nowSec : ℕ) (chain : CronChain) : CronChain × Bool :=
  if (chain.epochDuration : ℤ) ≤ (nowSec : ℤ) - (chain.lastResetTimestamp : ℤ) then
    (⟨chain.currentEpoch + 1, nowSec, chain.epochDuration⟩, true)
  else
    (chain, false)

/-- The distinguishable terminal results of one cron cycle. -/
inductive CycleResult where
  | methodNotAllowed : CycleResult
  | unauthorized : CycleResult
  | alreadyGenerated : ℕ → CycleResult
  | noPlayers : ℕ → CycleResult
  | publishedRoot : ℕ → ℕ → CycleResult
  | generatedWithoutKey : ℕ → ℕ → CycleResult
  deriving DecidableEq

/-- Observable outcome of one cron cycle: HTTP status, the JSON `success`
flag, the result payload, whether `resetEpoch()` was sent, the list of
`setMerkleRootAutomated(epoch, root)` ledger writes, and the list of epochs
whose artifact was uploaded to blob storage. -/
structure CycleOutcome where
  httpStatus : ℕ
  success : Bool
  result : CycleResult
  resetCalled : Bool
  rootWrites : List (ℕ × ℕ)
  blobWrites : List ℕ
  deriving DecidableEq

/-- The cron handler `api/cron/generate-rewards.js`, line by line: method and
`CRON_SECRET` checks; `checkAndResetEpoch`; `previousEpoch = currentEpoch - 1`;
the blob existence probe (short-circuit "already generated"); fetch players
for the previous epoch (`fetchEpochPlayers` keeps only `stars > 0`); the
zero-players success return; otherwise generate rewards and tree, upload the
artifact, and — when the signer key is configured — set the root on-chain. -/
def runRewardCycle (isPost authOk : Bool) (nowSec : ℕ) (chain : CronChain)
    (blobHas : ℕ → Bool) (playersOf : ℕ → List Player)
    (genRoot : List Player → ℕ) (hasSignerKey : Bool) : CycleOutcome :=
  if !isPost then
    ⟨405, false, .methodNotAllowed, false, [], []⟩
  else if !authOk then
    ⟨401, false, .unauthorized, false, [], []⟩
  else
    let reset := checkAndResetEpoch nowSec chain
    let previousEpoch := reset.1.currentEpoch - 1
    if blobHas previousEpoch then
      ⟨200, true, .alreadyGenerated previousEpoch, reset.2, [], []⟩
    else
      let players := (playersOf previousEpoch).filter (fun p => 0 < p.stars)
      if players.isEmpty then
        ⟨200, true, .noPlayers previousEpoch, reset.2, [], []⟩
      else
        let root := genRoot players
        if hasSignerKey then
          ⟨200, true, .publishedRoot previousEpoch root, reset.2,
            [(previousEpoch, root)], [previousEpoch]⟩
        else
          ⟨200, true, .generatedWithoutKey previousEpoch root, reset.2,
            [], [previousEpoch]⟩

/-! ## JS array aliasing for `calculateRewards` (frame claim)

JavaScript arrays are heap references.  A minimal store model: the heap is a
list of array cells, a reference is an index into it.  `[...players]`
allocates a fresh cell holding a copy of the contents; `.sort` mutates the
cell it is called on in place.  `calculateRewardsOnHeap` renders part_003
lines 36-38 against this store: the spread copy is allocated, the copy (and
only the copy) is sorted in place, and the remainder of the function reads the
sorted copy. -/

/-- Read an array cell (out-of-range reads yield the empty array). -/
def heapRead (heap : List (List Player)) (r : ℕ) : List Player :=
  heap.getD r []

/-- `[...a]`: allocate a fresh cell with a copy of `a`'s contents; returns the
grown heap and the new reference. -/
def heapAllocCopy (heap : List (List Player)) (r : ℕ) :
    List (List Player) × ℕ :=
  (heap ++ [heapRead heap r], heap.length)

/-- `arr.sort(cmp)`: sort the cell's contents in place. -/
def heapSortInPlace (heap : List (List Player)) (r : ℕ) : List (List Player) :=
  heap.set r (sortStarsDesc (heapRead heap r))

/-- `calculateRewards(players, ...)` run against the heap: `players` is a
reference; the function spreads it into a fresh array, sorts that copy in
place, and computes the distribution from the sorted copy.  Returns the final
heap together with the returned rewards list. -/
def calculateRewardsOnHeap (heap : List (List Player)) (playersRef : ℕ)
    (totalEmission : ℚ) (curveExponent : ℕ) :
    List (List Player) × List RewardEntry :=
  let alloc := heapAllocCopy heap playersRef
  let heap2 := heapSortInPlace alloc.1 alloc.2
  (heap2, calcFromSorted (heapRead heap2 alloc.2) totalEmission curveExponent)

/-! ## The reward lookup endpoint (`api/get-chops-reward.js`) -/

/-- One stored allocation record of the published artifact, as the endpoint
reads it.  The address is the stored JSON string, modelled as its character
codes. -/
structure StoredReward where
  address : List ℕ
  rewardAmount : ℤ
  rank : ℕ
  deriving DecidableEq

/-- ASCII `String.prototype.toLowerCase` on one character code (addresses are
`0x`-hex strings, all ASCII). -/
def lowerChar (c : ℕ) : ℕ :=
  if 65 ≤ c ∧ c ≤ 90 then c + 32 else c

/-- `s.toLowerCase()` over the character codes. -/
def lowerStr (s : List ℕ) : List ℕ :=
  s.map lowerChar

/-- `rewardData.rewards.find(r => r.address.toLowerCase() === address.toLowerCase())`:
first stored record whose address matches the query case-insensitively.  The
handler answers 200 with the record when `some`, 404 "No reward found for this
address" when `none`. -/
def findUserReward (rewards : List StoredReward) (queryAddress : List ℕ) :
    Option StoredReward :=
  rewards.find? (fun r => lowerStr r.address == lowerStr queryAddress)

/-- Σ_{k=1}^{N} k^c, the total weight as the spec writes it (rank `r` carries
weight `(N - r + 1)^c`, so summing over ranks 1..N is summing `k^c` over
k = 1..N). -/
def sumPowers (totalPlayers : ℕ) (curveExponent : ℕ) : ℚ :=
  ((List.range totalPlayers).map
    (fun k => ((k + 1 : ℕ) : ℚ) ^ curveExponent)).sum

/-- An injective encoding of ℤ into ℕ (evens for nonnegative, odds for
negative); used only to instantiate the abstract hash parameters with a
concrete collision-free function in witness theorems. -/
def intEnc (v : ℤ) : ℕ :=
  if 0 ≤ v then 2 * v.toNat else 2 * (-v).toNat - 1

/-! ## Basic lemmas -/

/-- `beBytes w n` always has exactly `w` bytes. -/
theorem beBytes_length : ∀ (w n : ℕ), (beBytes w n).length = w
  | 0, _ => rfl
  | w + 1, n => by simp [beBytes, beBytes_length w]

/-- `strBytes` turns string concatenation into byte concatenation. -/
theorem strBytes_append (s t : String) :
    strBytes (s ++ t) = strBytes s ++ strBytes t := by
  simp [strBytes, String.data_append]

/-- C1: for every claimant address, amount and nonce (and clock reading,
chain id and contract configuration), the voucher signer signs the EIP-191
"personal sign" wrap of the keccak256 of the tight packed concatenation of
claimant address (20 bytes), amount (32-byte big-endian), nonce (32-byte
big-endian), deadline (32-byte big-endian), chain id (32-byte big-endian) and
verifying contract address (20 bytes), in exactly that order. -/
theorem voucher_signs_prefixed_packed_hash (keccak : List ℕ → ℕ) (sign : ℕ → ℕ)
    (chainId starsAddr nowSec userAddress amount nonce : ℕ) :
    (generateStarClaimSignature keccak sign chainId starsAddr nowSec
        userAddress amount nonce).signature
      = sign (keccak (strBytes "\x19Ethereum Signed Message:\n32"
          ++ beBytes 32 (keccak
            (beBytes 20 userAddress ++ beBytes 32 amount ++ beBytes 32 nonce
              ++ beBytes 32 (nowSec + 3600) ++ beBytes 32 chainId
              ++ beBytes 20 starsAddr)))) := by
  have h32 : ∀ n : ℕ, toString (beBytes 32 n).length = "32" := by
    intro n
    rw [beBytes_length]
    rfl
  have hsplit : strBytes "\x19Ethereum Signed Message:\n32"
      = strBytes "\x19Ethereum Signed Message:\n" ++ strBytes "32" := by
    rw [← strBytes_append]
    rfl
  simp [generateStarClaimSignature, hashMessageBytes, solidityPackedKeccak256,
    solidityPackedBytes, packValue, h32, hsplit, List.append_assoc]

/-! ## Calculator lemmas -/

theorem insertStarsDesc_length (x : Player) :
    ∀ l : List Player, (insertStarsDesc x l).length = l.length + 1
  | [] => rfl
  | y :: ys => by
    by_cases h : x.stars < y.stars <;>
      simp [insertStarsDesc, h, insertStarsDesc_length x ys]

theorem sortStarsDesc_length : ∀ l : List Player, (sortStarsDesc l).length = l.length
  | [] => rfl
  | x :: xs => by simp [sortStarsDesc, insertStarsDesc_length, sortStarsDesc_length xs]

theorem curveWeights_length (N c : ℕ) : (curveWeights N c).length = N := by
  simp [curveWeights]

theorem curveWeights_getD (N c i : ℕ) (hi : i < N) :
    (curveWeights N c).getD i 0 = ((N - i : ℕ) : ℚ) ^ c := by
  rw [List.getD_eq_getElem _ _ (by simpa [curveWeights_length] using hi)]
  simp [curveWeights]

theorem curveWeights_mem_pos (N c : ℕ) (x : ℚ) (hx : x ∈ curveWeights N c) : 0 < x := by
  simp only [curveWeights, List.mem_map, List.mem_range] at hx
  obtain ⟨i, hi, rfl⟩ := hx
  have h1 : 0 < N - i := by omega
  have h2 : (0 : ℚ) < ((N - i : ℕ) : ℚ) := by exact_mod_cast h1
  exact pow_pos h2 _

theorem curveWeights_sum_pos (N c : ℕ) (hN : 1 ≤ N) : 0 < (curveWeights N c).sum := by
  refine List.sum_pos _ (curveWeights_mem_pos N c) ?_
  have := curveWeights_length N c
  intro h
  rw [h] at this
  simp at this
  omega

/-- The list of weights read backwards is the list of `k^c` for k = 1..N. -/
theorem curveWeights_eq_reverse (N c : ℕ) :
    curveWeights N c
      = (((List.range N).map (fun k => ((k + 1 : ℕ) : ℚ) ^ c)).reverse) := by
  induction N with
  | zero => rfl
  | succ n ih =>
    have hL : curveWeights (n + 1) c
        = ((n + 1 - 0 : ℕ) : ℚ) ^ c :: curveWeights n c := by
      rw [curveWeights, List.range_succ_eq_map, List.map_cons, List.map_map]
      refine congrArg (_ :: ·) ?_
      refine List.map_congr_left ?_
      intro i _
      have : n + 1 - (i + 1) = n - i := by omega
      simp [Function.comp, this]
    rw [hL, List.range_succ, List.map_append, List.reverse_append, ih]
    simp

theorem curveWeights_sum (N c : ℕ) : (curveWeights N c).sum = sumPowers N c := by
  rw [curveWeights_eq_reverse, List.sum_reverse]
  rfl

/-- The entry `calcFromSorted` produces at index `idx` (rank `idx + 1`). -/
theorem calcFromSorted_getD (sorted : List Player) (E : ℚ) (c i : ℕ)
    (hi : i < sorted.length) :
    (calcFromSorted sorted E c).getD i ⟨0, 0, 0, 0, 0, 0, 0⟩
      = ⟨(sorted.getD i emptyPlayer).address, (sorted.getD i emptyPlayer).stars,
          i + 1,
          toFixed2 (((i + 1 : ℕ) : ℚ) / (sorted.length : ℚ) * 100),
          ((sorted.length - i : ℕ) : ℚ) ^ c,
          ((sorted.length - i : ℕ) : ℚ) ^ c / (curveWeights sorted.length c).sum,
          parseEtherFixed4
            (E * (((sorted.length - i : ℕ) : ℚ) ^ c
              / (curveWeights sorted.length c).sum))⟩ := by
  rw [calcFromSorted]
  rw [List.getD_eq_getElem _ _ (by simpa using hi)]
  simp [← List.getD_eq_getElem?_getD, curveWeights_getD _ _ _ hi]

/-- C4 (amended): at 0-based index `i` (rank `r = i + 1`) of the stable
descending sort, the calculator assigns weight `(N - r + 1)^c = (N - i)^c`
and `rewardAmount = ⌊(totalEmission × weight/Σweight) × 10^4 + 1/2⌋ × 10^14`:
the share of emission is rounded to the nearest 0.0001 CHOPS (`toFixed(4)`,
ties up) and then scaled by 10^18 by `parseEther` — not floored at full 10^18
precision. -/
theorem calculateRewards_weight_and_amount (players : List Player) (E : ℚ)
    (c i : ℕ) (hi : i < players.length) :
    ((calculateRewards players E c).getD i ⟨0, 0, 0, 0, 0, 0, 0⟩).rank = i + 1
    ∧ ((calculateRewards players E c).getD i ⟨0, 0, 0, 0, 0, 0, 0⟩).weight
        = ((players.length - i : ℕ) : ℚ) ^ c
    ∧ ((calculateRewards players E c).getD i ⟨0, 0, 0, 0, 0, 0, 0⟩).rewardAmount
        = ⌊E * (((players.length - i : ℕ) : ℚ) ^ c / sumPowers players.length c)
            * 10 ^ 4 + 1 / 2⌋ * 10 ^ 14 := by
  have hlen : (sortStarsDesc players).length = players.length :=
    sortStarsDesc_length players
  have h := calcFromSorted_getD (sortStarsDesc players) E c i (by omega)
  rw [calculateRewards, h, hlen]
  refine ⟨rfl, rfl, ?_⟩
  rw [parseEtherFixed4, curveWeights_sum]

/-- C4 witness: the amended formula evaluated at two players, emission 10000,
curve exponent 1, rank 1. -/
theorem calculateRewards_weight_and_amount_witness :
    ((calculateRewards [⟨1, 2⟩, ⟨2, 1⟩] 10000 1).getD 0 ⟨0, 0, 0, 0, 0, 0, 0⟩).rank = 0 + 1
    ∧ ((calculateRewards [⟨1, 2⟩, ⟨2, 1⟩] 10000 1).getD 0 ⟨0, 0, 0, 0, 0, 0, 0⟩).weight
        = (((2 : ℕ) - 0 : ℕ) : ℚ) ^ 1
    ∧ ((calculateRewards [⟨1, 2⟩, ⟨2, 1⟩] 10000 1).getD 0 ⟨0, 0, 0, 0, 0, 0, 0⟩).rewardAmount
        = ⌊(10000 : ℚ) * ((((2 : ℕ) - 0 : ℕ) : ℚ) ^ 1 / sumPowers 2 1)
            * 10 ^ 4 + 1 / 2⌋ * 10 ^ 14 :=
  calculateRewards_weight_and_amount [⟨1, 2⟩, ⟨2, 1⟩] 10000 1 0 (by decide)

/-- C4 counterexample: with two players of stars 2 and 1, emission 10000 and
curve exponent 1, rank 1's rewardAmount is 6666.6667 CHOPS in wei
(6666667 × 10^18 / 1000), not `floor(weight/Σweight × 10000 × 10^18)`
= 6666666666666666666666: the code rounds at 4 decimal places instead of
flooring the exact scaled product. -/
theorem calculateRewards_amount_not_exact_floor :
    ¬ (((calculateRewards [⟨1, 2⟩, ⟨2, 1⟩] 10000 1).getD 0
          ⟨0, 0, 0, 0, 0, 0, 0⟩).rewardAmount
        = specFloorReward (((2 : ℕ) : ℚ) ^ 1) ((curveWeights 2 1).sum) 10000) := by
  have h := calcFromSorted_getD (sortStarsDesc [⟨1, 2⟩, ⟨2, 1⟩]) 10000 1 0
    (by rw [sortStarsDesc_length]; decide)
  have hw : (curveWeights 2 1).sum = 3 := by
    simp [curveWeights, List.range_succ]
    norm_num
  rw [calculateRewards, h]
  simp only [sortStarsDesc_length, List.length_cons, List.length_nil]
  norm_num [parseEtherFixed4, specFloorReward, hw]

/-- C6 (amended): the reported percentile at 0-based index `i` (rank
`r = i + 1`) is `(r / N × 100).toFixed(2)` — the rank's position counted from
the top, not `(N - r + 1) / N × 100`. -/
theorem calculateRewards_percentile (players : List Player) (E : ℚ)
    (c i : ℕ) (hi : i < players.length) :
    ((calculateRewards players E c).getD i ⟨0, 0, 0, 0, 0, 0, 0⟩).percentile
      = toFixed2 (((i + 1 : ℕ) : ℚ) / (players.length : ℚ) * 100) := by
  have hlen : (sortStarsDesc players).length = players.length :=
    sortStarsDesc_length players
  have h := calcFromSorted_getD (sortStarsDesc players) E c i (by omega)
  rw [calculateRewards, h, hlen]

/-- C6 witness: two players, rank 1 reports percentile 50. -/
theorem calculateRewards_percentile_witness :
    ((calculateRewards [⟨1, 2⟩, ⟨2, 1⟩] 10000 1).getD 0
        ⟨0, 0, 0, 0, 0, 0, 0⟩).percentile
      = toFixed2 (((0 + 1 : ℕ) : ℚ) / ((2 : ℕ) : ℚ) * 100) :=
  calculateRewards_percentile [⟨1, 2⟩, ⟨2, 1⟩] 10000 1 0 (by decide)

/-- C6 counterexample: with two players, rank 1's reported percentile is 50,
not `(N - r + 1) / N × 100 = 100` as the claim states. -/
theorem calculateRewards_percentile_not_inverse :
    ¬ (((calculateRewards [⟨1, 2⟩, ⟨2, 1⟩] 10000 1).getD 0
          ⟨0, 0, 0, 0, 0, 0, 0⟩).percentile
        = ((2 - 1 + 1 : ℚ) / 2) * 100) := by
  have h := calcFromSorted_getD (sortStarsDesc [⟨1, 2⟩, ⟨2, 1⟩]) 10000 1 0
    (by rw [sortStarsDesc_length]; decide)
  rw [calculateRewards, h]
  simp only [sortStarsDesc_length, List.length_cons, List.length_nil]
  norm_num [toFixed2]

/-- `toFixed(4)`-then-`parseEther` is monotone. -/
theorem parseEtherFixed4_mono (x y : ℚ) (h : x ≤ y) :
    parseEtherFixed4 x ≤ parseEtherFixed4 y := by
  rw [parseEtherFixed4, parseEtherFixed4]
  have hf : (⌊x * 10 ^ 4 + 1 / 2⌋ : ℤ) ≤ ⌊y * 10 ^ 4 + 1 / 2⌋ := by
    apply Int.floor_le_floor
    nlinarith
  exact mul_le_mul_of_nonneg_right hf (by norm_num)

/-- C5 (amended): with a positive curve exponent, reward amounts are
non-increasing in rank (weights strictly decrease with rank, but the 4-decimal
rounding of `toFixed(4)` can map two adjacent ranks to the same amount, so the
order is weak, not strict).  In particular rank 1 always receives at least
rank 2's amount, whatever the scores. -/
theorem calculateRewards_amount_antitone (players : List Player) (E : ℚ)
    (c i : ℕ) (hE : 0 ≤ E) (hc : 1 ≤ c) (hi : i + 1 < players.length) :
    ((calculateRewards players E c).getD (i + 1) ⟨0, 0, 0, 0, 0, 0, 0⟩).rewardAmount
      ≤ ((calculateRewards players E c).getD i ⟨0, 0, 0, 0, 0, 0, 0⟩).rewardAmount := by
  have hlen := sortStarsDesc_length players
  have h0 := calcFromSorted_getD (sortStarsDesc players) E c i (by omega)
  have h1 := calcFromSorted_getD (sortStarsDesc players) E c (i + 1) (by omega)
  rw [calculateRewards, h0, h1, hlen]
  have hW : 0 < (curveWeights players.length c).sum :=
    curveWeights_sum_pos players.length c (by omega)
  apply parseEtherFixed4_mono
  apply mul_le_mul_of_nonneg_left _ hE
  rw [div_le_div_iff_of_pos_right hW]
  apply pow_le_pow_left₀ (by positivity)
  exact_mod_cast Nat.sub_le_sub_left (by omega) players.length

/-- C5 witness: three players, emission 0.0002, curve exponent 1, ranks 2 vs 1. -/
theorem calculateRewards_amount_antitone_witness :
    ((calculateRewards [⟨1, 5⟩, ⟨2, 5⟩, ⟨3, 5⟩] (1 / 5000) 1).getD (0 + 1)
        ⟨0, 0, 0, 0, 0, 0, 0⟩).rewardAmount
      ≤ ((calculateRewards [⟨1, 5⟩, ⟨2, 5⟩, ⟨3, 5⟩] (1 / 5000) 1).getD 0
        ⟨0, 0, 0, 0, 0, 0, 0⟩).rewardAmount :=
  calculateRewards_amount_antitone [⟨1, 5⟩, ⟨2, 5⟩, ⟨3, 5⟩] (1 / 5000) 1 0
    (by norm_num) (by decide) (by decide)

/-- C5 counterexample: three players with equal scores, emission 0.0002 CHOPS,
curve exponent 1 > 0: ranks 1 and 2 both receive 10^14 wei (0.0001 CHOPS), so
the amounts are not strictly decreasing by rank. -/
theorem calculateRewards_equal_scores_not_strict :
    ¬ (((calculateRewards [⟨1, 5⟩, ⟨2, 5⟩, ⟨3, 5⟩] (1 / 5000) 1).getD 1
          ⟨0, 0, 0, 0, 0, 0, 0⟩).rewardAmount
        < ((calculateRewards [⟨1, 5⟩, ⟨2, 5⟩, ⟨3, 5⟩] (1 / 5000) 1).getD 0
          ⟨0, 0, 0, 0, 0, 0, 0⟩).rewardAmount) := by
  have h0 := calcFromSorted_getD (sortStarsDesc [⟨1, 5⟩, ⟨2, 5⟩, ⟨3, 5⟩]) (1 / 5000) 1 0
    (by rw [sortStarsDesc_length]; decide)
  have h1 := calcFromSorted_getD (sortStarsDesc [⟨1, 5⟩, ⟨2, 5⟩, ⟨3, 5⟩]) (1 / 5000) 1 1
    (by rw [sortStarsDesc_length]; decide)
  have hw : (curveWeights 3 1).sum = 6 := by
    simp [curveWeights, List.range_succ]
    norm_num
  rw [calculateRewards, h0, h1]
  simp only [sortStarsDesc_length, List.length_cons, List.length_nil]
  norm_num [parseEtherFixed4, hw]

/-- Sum of a list read off by `getD` over its index range. -/
theorem sum_range_getD (l : List ℚ) :
    ∑ i ∈ Finset.range l.length, l.getD i 0 = l.sum := by
  induction l with
  | nil => simp
  | cons x xs ih =>
    rw [List.length_cons, Finset.sum_range_succ']
    simp only [List.getD_cons_succ, List.getD_cons_zero, List.sum_cons]
    rw [ih]
    ring

/-- A `List.range` map-sum is the `Finset.range` sum. -/
theorem list_range_map_sum (n : ℕ) (f : ℕ → ℚ) :
    ((List.range n).map f).sum = ∑ i ∈ Finset.range n, f i := by
  induction n with
  | zero => simp
  | succ m ih => rw [List.range_succ, Finset.sum_range_succ]; simp [ih]

/-- The mapped reward amounts of `calculateRewards`, as a range map. -/
theorem calculateRewards_map_amount (players : List Player) (E : ℚ) (c : ℕ) :
    (calculateRewards players E c).map RewardEntry.rewardAmount
      = (List.range players.length).map (fun i =>
          parseEtherFixed4 (E * ((curveWeights players.length c).getD i 0
            / (curveWeights players.length c).sum))) := by
  rw [calculateRewards, calcFromSorted, sortStarsDesc_length, List.map_map]
  rfl

/-- C3 (amended): for every nonempty player list, every emission and every
natural curve exponent, the wei amounts sum to at most
`totalEmission × 10^18 + N × 5 × 10^13`: each of the `N` shares is rounded to
the nearest 0.0001 CHOPS (`toFixed(4)`, ties up), adding at most half a unit
(5 × 10^13 wei) per player — so the configured emission can be exceeded by
rounding, but by no more than that. -/
theorem calculateRewards_sum_bounded (players : List Player) (E : ℚ) (c : ℕ)
    (hne : 1 ≤ players.length) :
    ((((calculateRewards players E c).map RewardEntry.rewardAmount).sum : ℤ) : ℚ)
      ≤ E * 10 ^ 18 + (players.length : ℚ) * 5 * 10 ^ 13 := by
  have hW : 0 < (curveWeights players.length c).sum :=
    curveWeights_sum_pos players.length c hne
  rw [calculateRewards_map_amount, Int.cast_list_sum, List.map_map,
    list_range_map_sum]
  simp only [Function.comp_apply]
  have hstep : ∀ i ∈ Finset.range players.length,
      ((parseEtherFixed4 (E * ((curveWeights players.length c).getD i 0
          / (curveWeights players.length c).sum)) : ℤ) : ℚ)
        ≤ E * 10 ^ 18 / (curveWeights players.length c).sum
            * (curveWeights players.length c).getD i 0 + 5 * 10 ^ 13 := by
    intro i _
    set w := (curveWeights players.length c).getD i 0
    set W := (curveWeights players.length c).sum
    rw [parseEtherFixed4]
    push_cast
    have hfl : ((⌊E * (w / W) * 10 ^ 4 + 1 / 2⌋ : ℤ) : ℚ)
        ≤ E * (w / W) * 10 ^ 4 + 1 / 2 := Int.floor_le _
    have h2 : ((⌊E * (w / W) * 10 ^ 4 + 1 / 2⌋ : ℤ) : ℚ) * 10 ^ 14
        ≤ (E * (w / W) * 10 ^ 4 + 1 / 2) * 10 ^ 14 :=
      mul_le_mul_of_nonneg_right hfl (by norm_num)
    refine le_trans h2 ?_
    have hring : (E * (w / W) * 10 ^ 4 + 1 / 2) * 10 ^ 14
        = E * 10 ^ 18 / W * w + 5 * 10 ^ 13 := by ring
    rw [hring]
  refine le_trans (Finset.sum_le_sum hstep) ?_
  rw [Finset.sum_add_distrib, ← Finset.mul_sum]
  have hw : ∑ i ∈ Finset.range players.length,
      (curveWeights players.length c).getD i 0
        = (curveWeights players.length c).sum := by
    have := sum_range_getD (curveWeights players.length c)
    rwa [curveWeights_length] at this
  rw [hw, div_mul_cancel₀ _ (ne_of_gt hW)]
  rw [Finset.sum_const, Finset.card_range, nsmul_eq_mul]
  ring_nf
  nlinarith [sq_nonneg (1 : ℚ)]

/-- C3 witness: a single player at emission 10000, curve exponent 1. -/
theorem calculateRewards_sum_bounded_witness :
    ((((calculateRewards [⟨1, 1⟩] 10000 1).map RewardEntry.rewardAmount).sum : ℤ) : ℚ)
      ≤ 10000 * 10 ^ 18 + (([(⟨1, 1⟩ : Player)].length : ℕ) : ℚ) * 5 * 10 ^ 13 :=
  calculateRewards_sum_bounded [⟨1, 1⟩] 10000 1 (by decide)

/-- C3 counterexample: three players, emission 2 CHOPS, curve exponent 0.
Each share is 2/3 CHOPS, and `toFixed(4)` rounds each up to 0.6667, so the
paid total is 2.0001 CHOPS in wei — exceeding totalEmission × 10^18. -/
theorem calculateRewards_sum_can_exceed_emission :
    ¬ ((((calculateRewards [⟨1, 3⟩, ⟨2, 2⟩, ⟨3, 1⟩] 2 0).map
          RewardEntry.rewardAmount).sum : ℤ) ≤ 2 * 10 ^ 18) := by
  rw [calculateRewards_map_amount]
  have hcw : curveWeights 3 0 = [1, 1, 1] := by
    simp [curveWeights, List.range_succ]
  norm_num [hcw, List.range_succ, parseEtherFixed4]

/-- C7: when the player scan for the target epoch comes back empty (and no
artifact already exists), the cron cycle ends with HTTP 200, `success: true`
and the explicit "no players" result, sends no `setMerkleRootAutomated`
transaction and writes no artifact. -/
theorem cycle_reports_no_players (nowSec : ℕ) (chain : CronChain)
    (blobHas : ℕ → Bool) (playersOf : ℕ → List Player)
    (genRoot : List Player → ℕ) (hasSignerKey : Bool)
    (hblob : blobHas ((checkAndResetEpoch nowSec chain).1.currentEpoch - 1) = false)
    (hplayers : (playersOf ((checkAndResetEpoch nowSec chain).1.currentEpoch - 1)).filter
        (fun p => 0 < p.stars) = []) :
    runRewardCycle true true nowSec chain blobHas playersOf genRoot hasSignerKey
      = ⟨200, true,
          .noPlayers ((checkAndResetEpoch nowSec chain).1.currentEpoch - 1),
          (checkAndResetEpoch nowSec chain).2, [], []⟩ := by
  rw [runRewardCycle]
  simp [hblob, hplayers]

/-- C7 witness: epoch window elapsed at epoch 2, no artifact, no players. -/
theorem cycle_reports_no_players_witness :
    runRewardCycle true true 1000 ⟨2, 0, 100⟩ (fun _ => false) (fun _ => [])
        (fun _ => 0) true
      = ⟨200, true,
          .noPlayers ((checkAndResetEpoch 1000 ⟨2, 0, 100⟩).1.currentEpoch - 1),
          (checkAndResetEpoch 1000 ⟨2, 0, 100⟩).2, [], []⟩ :=
  cycle_reports_no_players 1000 ⟨2, 0, 100⟩ (fun _ => false) (fun _ => [])
    (fun _ => 0) true rfl rfl

/-- C8: when the blob store already holds the target epoch's artifact, the
cron cycle short-circuits with "already generated" (HTTP 200, success), sends
no root-setting transaction and writes no artifact; and the outcome is
independent of the player scan and the reward generation (they are never
consulted). -/
theorem cycle_already_generated (nowSec : ℕ) (chain : CronChain)
    (blobHas : ℕ → Bool) (playersOf playersOf' : ℕ → List Player)
    (genRoot genRoot' : List Player → ℕ) (hasSignerKey : Bool)
    (hblob : blobHas ((checkAndResetEpoch nowSec chain).1.currentEpoch - 1) = true) :
    runRewardCycle true true nowSec chain blobHas playersOf genRoot hasSignerKey
      = ⟨200, true,
          .alreadyGenerated ((checkAndResetEpoch nowSec chain).1.currentEpoch - 1),
          (checkAndResetEpoch nowSec chain).2, [], []⟩
    ∧ runRewardCycle true true nowSec chain blobHas playersOf genRoot hasSignerKey
      = runRewardCycle true true nowSec chain blobHas playersOf' genRoot' hasSignerKey := by
  constructor
  · rw [runRewardCycle]
    simp [hblob]
  · rw [runRewardCycle, runRewardCycle]
    simp [hblob]

/-- C8 witness: artifact already present for the target epoch; two unrelated
player scans and generators give the same short-circuited outcome. -/
theorem cycle_already_generated_witness :
    runRewardCycle true true 50 ⟨3, 0, 100⟩ (fun _ => true) (fun _ => [])
        (fun _ => 0) true
      = ⟨200, true,
          .alreadyGenerated ((checkAndResetEpoch 50 ⟨3, 0, 100⟩).1.currentEpoch - 1),
          (checkAndResetEpoch 50 ⟨3, 0, 100⟩).2, [], []⟩
    ∧ runRewardCycle true true 50 ⟨3, 0, 100⟩ (fun _ => true) (fun _ => [])
        (fun _ => 0) true
      = runRewardCycle true true 50 ⟨3, 0, 100⟩ (fun _ => true)
          (fun _ => [⟨7, 9⟩]) (fun _ => 42) true :=
  cycle_already_generated 50 ⟨3, 0, 100⟩ (fun _ => true) (fun _ => [])
    (fun _ => [⟨7, 9⟩]) (fun _ => 0) (fun _ => 42) true rfl

/-- C9: the reward lookup matches the stored allocation by lowercased address
comparison: when a stored record's address equals the query up to letter case
(and the stored addresses are pairwise distinct case-insensitively), `find`
returns exactly that record — not the not-found branch. -/
theorem reward_lookup_case_insensitive :
    ∀ (rewards : List StoredReward) (queryAddress : List ℕ) (r : StoredReward),
      r ∈ rewards → lowerStr r.address = lowerStr queryAddress →
      rewards.Pairwise (fun a b => lowerStr a.address ≠ lowerStr b.address) →
      findUserReward rewards queryAddress = some r
  | [], _, r, hmem, _, _ => absurd hmem (List.not_mem_nil r)
  | x :: xs, q, r, hmem, hcase, hdist => by
    have hd := List.pairwise_cons.mp hdist
    rcases List.mem_cons.mp hmem with rfl | hx
    · rw [findUserReward]
      exact List.find?_cons_of_pos _ (by simp [hcase])
    · have hne : (lowerStr x.address == lowerStr q) = false := by
        apply beq_eq_false_iff_ne.mpr
        intro h
        exact (hd.1 r hx) (h.trans hcase.symm)
      rw [findUserReward, List.find?_cons_of_neg _ (by simp [hne])]
      exact reward_lookup_case_insensitive xs q r hx hcase hd.2

/-- C9 witness: stored address "0xAbC" found by the query "0xabc". -/
theorem reward_lookup_case_insensitive_witness :
    findUserReward [⟨[48, 120, 65, 98, 67], 5, 1⟩] [48, 120, 97, 98, 99]
      = some ⟨[48, 120, 65, 98, 67], 5, 1⟩ :=
  reward_lookup_case_insensitive [⟨[48, 120, 65, 98, 67], 5, 1⟩]
    [48, 120, 97, 98, 99] ⟨[48, 120, 65, 98, 67], 5, 1⟩
    (by decide) (by decide) (by decide)

/-- C10: `calculateRewards` sorts a spread copy of its argument: after the
call, the caller's array cell is unchanged, and the returned rewards are those
of the pure calculation on the original contents. -/
theorem calculateRewards_input_unchanged (heap : List (List Player)) (r : ℕ)
    (E : ℚ) (c : ℕ) (hr : r < heap.length) :
    heapRead (calculateRewardsOnHeap heap r E c).1 r = heapRead heap r
    ∧ (calculateRewardsOnHeap heap r E c).2
        = calculateRewards (heapRead heap r) E c := by
  have hv : (heap ++ [heap.getD r []]).getD heap.length []
      = heap.getD r [] := by
    rw [List.getD_eq_getElem?_getD, List.getElem?_concat_length]
    rfl
  constructor
  · rw [calculateRewardsOnHeap]
    simp only [heapAllocCopy, heapSortInPlace, heapRead]
    rw [List.getD_eq_getElem?_getD, List.getElem?_set_ne (by omega),
      List.getElem?_append_left hr, ← List.getD_eq_getElem?_getD]
  · rw [calculateRewardsOnHeap, calculateRewards]
    simp only [heapAllocCopy, heapSortInPlace, heapRead]
    rw [hv]
    rw [List.getD_eq_getElem?_getD, List.getElem?_set_self (by simp)]
    rfl

/-- C10 witness: a two-cell heap, rewards computed from cell 0. -/
theorem calculateRewards_input_unchanged_witness :
    heapRead (calculateRewardsOnHeap [[⟨1, 1⟩, ⟨2, 5⟩]] 0 10000 1).1 0
        = heapRead [[⟨1, 1⟩, ⟨2, 5⟩]] 0
    ∧ (calculateRewardsOnHeap [[⟨1, 1⟩, ⟨2, 5⟩]] 0 10000 1).2
        = calculateRewards (heapRead [[⟨1, 1⟩, ⟨2, 5⟩]] 0) 10000 1 :=
  calculateRewards_input_unchanged [[⟨1, 1⟩, ⟨2, 5⟩]] 0 10000 1 (by decide)

/-! ## Merkle tree lemmas -/

/-- Each level halves the node count, rounding up. -/
theorem nextLevel_length (nodeHash : ℕ → ℕ → ℕ) :
    ∀ L : List ℕ, (nextLevel nodeHash L).length = (L.length + 1) / 2
  | [] => by simp [nextLevel]
  | [_] => by simp [nextLevel]
  | _ :: _ :: rest => by
    simp [nextLevel, nextLevel_length nodeHash rest]; omega

/-- The root fold does not depend on the fuel, once the fuel covers the list. -/
theorem merkleRootFuel_congr (nodeHash : ℕ → ℕ → ℕ) :
    ∀ (f g : ℕ) (L : List ℕ), L.length ≤ f → L.length ≤ g →
      merkleRootFuel nodeHash f L = merkleRootFuel nodeHash g L
  | f, g, [], _, _ => by cases f <;> cases g <;> rfl
  | f, g, [x], _, _ => by cases f <;> cases g <;> rfl
  | 0, _, _ :: _ :: _, hf, _ => by simp at hf
  | _ + 1, 0, _ :: _ :: _, _, hg => by simp at hg
  | f + 1, g + 1, x :: y :: rest, hf, hg => by
    show merkleRootFuel nodeHash f (nextLevel nodeHash (x :: y :: rest))
      = merkleRootFuel nodeHash g (nextLevel nodeHash (x :: y :: rest))
    apply merkleRootFuel_congr nodeHash f g <;>
      · rw [nextLevel_length]
        simp only [List.length_cons] at hf hg ⊢
        omega

/-- One level step of the root: a two-or-more level folds into its parent. -/
theorem merkleRoot_step (nodeHash : ℕ → ℕ → ℕ) (x y : ℕ) (rest : List ℕ) :
    merkleRoot nodeHash (x :: y :: rest)
      = merkleRoot nodeHash (nextLevel nodeHash (x :: y :: rest)) := by
  rw [merkleRoot, merkleRoot]
  show merkleRootFuel nodeHash (rest.length + 1) (nextLevel nodeHash (x :: y :: rest))
    = merkleRootFuel nodeHash (nextLevel nodeHash (x :: y :: rest)).length
        (nextLevel nodeHash (x :: y :: rest))
  apply merkleRootFuel_congr <;> rw [nextLevel_length] <;> simp <;> omega

/-- The proof walk does not depend on the fuel, once the fuel covers the
list. -/
theorem merkleProofFuel_congr (nodeHash : ℕ → ℕ → ℕ) :
    ∀ (f g : ℕ) (L : List ℕ) (i : ℕ), L.length ≤ f → L.length ≤ g →
      merkleProofFuel nodeHash f L i = merkleProofFuel nodeHash g L i
  | f, g, [], _, _, _ => by cases f <;> cases g <;> rfl
  | f, g, [x], _, _, _ => by cases f <;> cases g <;> rfl
  | 0, _, _ :: _ :: _, _, hf, _ => by simp at hf
  | _ + 1, 0, _ :: _ :: _, _, _, hg => by simp at hg
  | f + 1, g + 1, x :: y :: rest, i, hf, hg => by
    show (if (if i % 2 = 1 then i - 1 else i + 1) < (x :: y :: rest).length
          then [(x :: y :: rest).getD (if i % 2 = 1 then i - 1 else i + 1) 0] else [])
        ++ merkleProofFuel nodeHash f (nextLevel nodeHash (x :: y :: rest)) (i / 2)
      = (if (if i % 2 = 1 then i - 1 else i + 1) < (x :: y :: rest).length
          then [(x :: y :: rest).getD (if i % 2 = 1 then i - 1 else i + 1) 0] else [])
        ++ merkleProofFuel nodeHash g (nextLevel nodeHash (x :: y :: rest)) (i / 2)
    congr 1
    apply merkleProofFuel_congr nodeHash f g <;>
      · rw [nextLevel_length]
        simp only [List.length_cons] at hf hg ⊢
        omega

/-- One level step of the proof walk. -/
theorem merkleProofAt_step (nodeHash : ℕ → ℕ → ℕ) (x y : ℕ) (rest : List ℕ)
    (i : ℕ) :
    merkleProofAt nodeHash (x :: y :: rest) i
      = (if (if i % 2 = 1 then i - 1 else i + 1) < (x :: y :: rest).length
          then [(x :: y :: rest).getD (if i % 2 = 1 then i - 1 else i + 1) 0] else [])
        ++ merkleProofAt nodeHash (nextLevel nodeHash (x :: y :: rest)) (i / 2) := by
  rw [merkleProofAt, merkleProofAt]
  show (if (if i % 2 = 1 then i - 1 else i + 1) < (x :: y :: rest).length
        then [(x :: y :: rest).getD (if i % 2 = 1 then i - 1 else i + 1) 0] else [])
      ++ merkleProofFuel nodeHash (rest.length + 1)
          (nextLevel nodeHash (x :: y :: rest)) (i / 2)
    = (if (if i % 2 = 1 then i - 1 else i + 1) < (x :: y :: rest).length
        then [(x :: y :: rest).getD (if i % 2 = 1 then i - 1 else i + 1) 0] else [])
      ++ merkleProofFuel nodeHash (nextLevel nodeHash (x :: y :: rest)).length
          (nextLevel nodeHash (x :: y :: rest)) (i / 2)
  congr 1
  apply merkleProofFuel_congr <;> rw [nextLevel_length] <;> simp <;> omega

theorem combinePair_comm (nodeHash : ℕ → ℕ → ℕ) (x y : ℕ) :
    combinePair nodeHash x y = combinePair nodeHash y x := by
  rw [combinePair, combinePair, min_comm, max_comm]

/-- Reading the parent level at `j` pairs up the children at `2j` and
`2j + 1`, or passes the lone child `2j` through when it has no sibling. -/
theorem nextLevel_getD (nodeHash : ℕ → ℕ → ℕ) :
    ∀ (L : List ℕ) (j : ℕ), 2 * j < L.length →
      (nextLevel nodeHash L).getD j 0
        = if 2 * j + 1 < L.length then
            combinePair nodeHash (L.getD (2 * j) 0) (L.getD (2 * j + 1) 0)
          else L.getD (2 * j) 0
  | [], j, h => by simp at h
  | [x], j, h => by
    have hj : j = 0 := by
      simp at h
      omega
    subst hj
    simp [nextLevel]
  | x :: y :: rest, 0, _h => by
    simp [nextLevel]
  | x :: y :: rest, j + 1, h => by
    have hlt : 2 * j < rest.length := by
      simp only [List.length_cons] at h
      omega
    have hrec := nextLevel_getD nodeHash rest j hlt
    have e1 : 2 * (j + 1) = 2 * j + 1 + 1 := by ring
    rw [show nextLevel nodeHash (x :: y :: rest)
      = combinePair nodeHash x y :: nextLevel nodeHash rest from rfl]
    rw [List.getD_cons_succ, hrec, e1]
    simp only [List.length_cons, List.getD_cons_succ]
    by_cases hc : 2 * j + 1 < rest.length
    · rw [if_pos hc, if_pos (by omega)]
    · rw [if_neg hc, if_neg (by omega)]

/-- Verifying completeness: folding the proof for index `i` from the leaf at
index `i` reconstructs the root. -/
theorem merkleProofAt_fold (nodeHash : ℕ → ℕ → ℕ) :
    ∀ (L : List ℕ) (i : ℕ), i < L.length →
      (merkleProofAt nodeHash L i).foldl (combinePair nodeHash) (L.getD i 0)
        = merkleRoot nodeHash L
  | [], i, h => by simp at h
  | [x], i, h => by
    have hi : i = 0 := by
      simp at h
      omega
    subst hi
    simp [merkleProofAt, merkleProofFuel, merkleRoot, merkleRootFuel]
  | x :: y :: rest, i, h => by
    have hlen2 : 2 ≤ (x :: y :: rest).length := by simp
    have hnext : i / 2 < (nextLevel nodeHash (x :: y :: rest)).length := by
      rw [nextLevel_length]
      simp only [List.length_cons] at h ⊢
      omega
    have hrec := merkleProofAt_fold nodeHash
      (nextLevel nodeHash (x :: y :: rest)) (i / 2) hnext
    rw [merkleProofAt_step]
    rw [List.foldl_append]
    rw [merkleRoot_step, ← hrec]
    congr 1
    by_cases hodd : i % 2 = 1
    · have hpair : i - 1 < (x :: y :: rest).length := by omega
      rw [if_pos hodd, if_pos hpair]
      rw [List.foldl_cons, List.foldl_nil]
      rw [nextLevel_getD nodeHash _ _ (by omega)]
      rw [if_pos (by omega)]
      rw [show 2 * (i / 2) = i - 1 from by omega, show i - 1 + 1 = i from by omega]
      exact combinePair_comm nodeHash _ _
    · rw [if_neg hodd]
      by_cases hsib : i + 1 < (x :: y :: rest).length
      · rw [if_pos hsib]
        rw [List.foldl_cons, List.foldl_nil]
        rw [nextLevel_getD nodeHash _ _ (by omega)]
        rw [if_pos (by omega)]
        rw [show 2 * (i / 2) = i from by omega]
      · rw [if_neg hsib]
        rw [List.foldl_nil]
        rw [nextLevel_getD nodeHash _ _ (by omega)]
        rw [if_neg (by omega)]
        rw [show 2 * (i / 2) = i from by omega]
  termination_by L => L.length
  decreasing_by simp [nextLevel_length]; omega

/-- A sorted-pair combination step is injective in the running hash, given
pairwise injectivity of the node hash. -/
theorem combinePair_inj (nodeHash : ℕ → ℕ → ℕ)
    (hnode : ∀ a b u v, nodeHash a b = nodeHash u v → a = u ∧ b = v)
    (x y e : ℕ) (h : combinePair nodeHash x e = combinePair nodeHash y e) :
    x = y := by
  rw [combinePair, combinePair] at h
  obtain ⟨h1, h2⟩ := hnode _ _ _ _ h
  have hx := min_add_max x e
  have hy := min_add_max y e
  have : x + e = y + e := by rw [← hx, ← hy, h1, h2]
  omega

/-- Folding a proof is injective in the starting leaf. -/
theorem foldl_combinePair_inj (nodeHash : ℕ → ℕ → ℕ)
    (hnode : ∀ a b u v, nodeHash a b = nodeHash u v → a = u ∧ b = v) :
    ∀ (proof : List ℕ) (x y : ℕ),
      proof.foldl (combinePair nodeHash) x = proof.foldl (combinePair nodeHash) y →
      x = y
  | [], _, _, h => h
  | e :: rest, x, y, h => by
    simp only [List.foldl_cons] at h
    exact combinePair_inj nodeHash hnode x y e
      (foldl_combinePair_inj nodeHash hnode rest _ _ h)

/-- C2: against the root of the builder's sorted-pairs Merkle tree, the proof
the builder produces for an allocation verifies that allocation's (address,
amount) pair; and — when the two keccak call shapes are collision-free — the
same proof rejects every (address, amount) pair that is not in the allocation
list (in particular any tampered amount). -/
theorem merkle_roundtrip (nodeHash : ℕ → ℕ → ℕ) (leafHash : ℕ → ℤ → ℕ)
    (hnode : ∀ a b u v, nodeHash a b = nodeHash u v → a = u ∧ b = v)
    (hleaf : ∀ a x u y, leafHash a x = leafHash u y → a = u ∧ x = y)
    (allocations : List Allocation) (alloc : Allocation)
    (queryAddr : ℕ) (queryAmt : ℤ)
    (hmem : alloc ∈ allocations)
    (hq : (Allocation.mk queryAddr queryAmt) ∉ allocations) :
    verifyProof nodeHash leafHash (merkleLeaves leafHash allocations)
        alloc.address alloc.amount
        (merkleProofOf nodeHash (merkleLeaves leafHash allocations)
          (leafHash alloc.address alloc.amount)) = true
    ∧ verifyProof nodeHash leafHash (merkleLeaves leafHash allocations)
        queryAddr queryAmt
        (merkleProofOf nodeHash (merkleLeaves leafHash allocations)
          (leafHash alloc.address alloc.amount)) = false := by
  have hmemleaf : leafHash alloc.address alloc.amount
      ∈ merkleLeaves leafHash allocations := by
    rw [merkleLeaves]
    exact List.mem_map_of_mem _ hmem
  have hidx : (merkleLeaves leafHash allocations).indexOf
      (leafHash alloc.address alloc.amount)
      < (merkleLeaves leafHash allocations).length :=
    List.indexOf_lt_length.mpr hmemleaf
  have hget : (merkleLeaves leafHash allocations).getD
      ((merkleLeaves leafHash allocations).indexOf
        (leafHash alloc.address alloc.amount)) 0
      = leafHash alloc.address alloc.amount := by
    rw [List.getD_eq_getElem _ _ hidx]
    exact List.getElem_indexOf hidx
  have hfold := merkleProofAt_fold nodeHash (merkleLeaves leafHash allocations) _ hidx
  rw [hget] at hfold
  constructor
  · rw [verifyProof, merkleVerify, merkleProofOf, hfold]
    exact beq_self_eq_true _
  · rw [verifyProof, merkleVerify, merkleProofOf, beq_eq_false_iff_ne]
    intro hEq
    rw [← hfold] at hEq
    have hsame := foldl_combinePair_inj nodeHash hnode _ _ _ hEq
    obtain ⟨ha, hv⟩ := hleaf _ _ _ _ hsame
    apply hq
    have : Allocation.mk queryAddr queryAmt = alloc := by
      obtain ⟨a, v⟩ := alloc
      simp_all
    rw [this]
    exact hmem

/-- The ℤ-to-ℕ encoding used in the Merkle witness is injective. -/
theorem intEnc_inj (x y : ℤ) (h : intEnc x = intEnc y) : x = y := by
  rw [intEnc, intEnc] at h
  by_cases hx : 0 ≤ x <;> by_cases hy : 0 ≤ y <;> simp only [hx, hy, if_pos, if_neg,
    if_true, if_false, reduceIte] at h <;> omega

/-- C2 witness: three allocations hashed with the (injective) Nat pairing
function; the proof for (3, 30) accepts (3, 30) and rejects the tampered pair
(2, 21). -/
theorem merkle_roundtrip_witness :
    verifyProof Nat.pair (fun a v => Nat.pair a (intEnc v))
        (merkleLeaves (fun a v => Nat.pair a (intEnc v)) [⟨1, 10⟩, ⟨2, 20⟩, ⟨3, 30⟩])
        (Allocation.mk 3 30).address (Allocation.mk 3 30).amount
        (merkleProofOf Nat.pair
          (merkleLeaves (fun a v => Nat.pair a (intEnc v)) [⟨1, 10⟩, ⟨2, 20⟩, ⟨3, 30⟩])
          ((fun a v => Nat.pair a (intEnc v)) (Allocation.mk 3 30).address
            (Allocation.mk 3 30).amount)) = true
    ∧ verifyProof Nat.pair (fun a v => Nat.pair a (intEnc v))
        (merkleLeaves (fun a v => Nat.pair a (intEnc v)) [⟨1, 10⟩, ⟨2, 20⟩, ⟨3, 30⟩])
        2 21
        (merkleProofOf Nat.pair
          (merkleLeaves (fun a v => Nat.pair a (intEnc v)) [⟨1, 10⟩, ⟨2, 20⟩, ⟨3, 30⟩])
          ((fun a v => Nat.pair a (intEnc v)) (Allocation.mk 3 30).address
            (Allocation.mk 3 30).amount)) = false :=
  merkle_roundtrip Nat.pair (fun a v => Nat.pair a (intEnc v))
    (fun _ _ _ _ h => Nat.pair_eq_pair.mp h)
    (fun a x u y h => by
      have h1 := Nat.pair_eq_pair.mp h
      exact ⟨h1.1, intEnc_inj x y h1.2⟩)
    [⟨1, 10⟩, ⟨2, 20⟩, ⟨3, 30⟩] ⟨3, 30⟩ 2 21 (by decide) (by decide)
